import Mathlib

/-!
Verification of the pyqstrat return-metrics evaluator (source file
`pyqstrat/src_nb/evaluator.ipynb`) against its natural-language
specification.

Shallow embedding conventions:
* Python dicts become association lists with python-dict update semantics
  (`dictGet` / `dictSet`: first occurrence wins, insertion order kept).
* The recursive metric resolver `Evaluator.compute_metric` gets an explicit
  recursion-fuel argument modelling the Python call stack; running out of
  fuel models non-termination / stack overflow (a `RecursionError`), while
  `RErr.unresolved` models the `KeyError` raised by `self._metrics[name]`
  when a name is neither cached nor registered.
* A recipe's compute function is modelled as `List α → α` applied to the
  dependency values in declared order.  Python binds the values by keyword
  (`func(**dependency_values)` with keys exactly the declared dependency
  names), which is the positional binding in declared order described in
  the spec, so the two coincide.
* Each invocation of a recipe's compute function is recorded in `callLog`,
  the side-effect counter the spec's idempotence property talks about.
-/

/-! ## Python dict model -/

def dictGet {β : Type} : List (String × β) → String → Option β
  | [], _ => none
  | (k, v) :: rest, key => if k = key then some v else dictGet rest key

def dictSet {β : Type} : List (String × β) → String → β → List (String × β)
  | [], key, v => [(key, v)]
  | (k, w) :: rest, key, v =>
    if k = key then (key, v) :: rest else (k, w) :: dictSet rest key v

theorem dictGet_dictSet_self {β : Type} (m : List (String × β)) (k : String) (v : β) :
    dictGet (dictSet m k v) k = some v := by
  induction m with
  | nil => simp [dictGet, dictSet]
  | cons p rest ih =>
    obtain ⟨a, b⟩ := p
    by_cases h : a = k
    · simp [dictSet, h, dictGet]
    · simp [dictSet, h, dictGet, ih]

theorem dictGet_dictSet_ne {β : Type} (m : List (String × β)) (k k' : String) (v : β)
    (h : k' ≠ k) : dictGet (dictSet m k v) k' = dictGet m k' := by
  have hks : ¬k = k' := fun h' => h h'.symm
  induction m with
  | nil => simp [dictGet, dictSet, hks]
  | cons p rest ih =>
    obtain ⟨a, b⟩ := p
    by_cases ha : a = k
    · subst ha
      simp [dictSet, dictGet, hks]
    · simp only [dictSet, ha, if_false, dictGet]
      by_cases ha' : a = k'
      · simp [ha']
      · simp [ha', ih]

theorem dictGet_dictSet_isSome {β : Type} (m : List (String × β)) (k k' : String) (v : β)
    (h : (dictGet m k').isSome = true) :
    (dictGet (dictSet m k v) k').isSome = true := by
  by_cases hk : k' = k
  · subst hk; simp [dictGet_dictSet_self]
  · rwa [dictGet_dictSet_ne _ _ _ _ hk]

/-! ## The metric engine (`class Evaluator`) -/

/-- State of one `Evaluator` instance: the memo dict `self.metric_values`,
the recipe registry `self._metrics`, and a log of every compute-function
invocation (the "side-effect counter" used to observe recomputation). -/
structure Evaluator (α : Type) where
  metric_values : List (String × α)
  registry : List (String × ((List α → α) × List String))
  callLog : List String

/-- Structural failures of the engine.  `unresolved n` models the `KeyError`
raised by `self._metrics[n]` in `compute_metric` (the spec's
`UnresolvedDependency`); `outOfFuel` models unbounded recursion
(the Python stack overflowing on cyclic dependencies). -/
inductive RErr where
  | unresolved (name : String)
  | outOfFuel
deriving DecidableEq

/-- The dependency loop of `Evaluator.compute_metric`:
`for dependency in dependencies: if dependency not in self.metric_values:
self.compute_metric(dependency)`.  `step` is the recursive
`compute_metric` call (one stack frame deeper). -/
def resolveList {α : Type} (step : Evaluator α → String → Option RErr × Evaluator α) :
    List String → Evaluator α → Option RErr × Evaluator α
  | [], ev => (none, ev)
  | d :: rest, ev =>
    if (dictGet ev.metric_values d).isSome then resolveList step rest ev
    else
      match step ev d with
      | (some e, ev') => (some e, ev')
      | (none, ev') => resolveList step rest ev'

/-- `Evaluator.compute_metric`.  Looks the name up in `self._metrics`
(`KeyError` → `unresolved`), resolves each dependency in declared order
(skipping cached ones), then invokes the compute function on the dependency
values and caches the result.  Note there is no cache check for `name`
itself.  The `.getD default` is unreachable: after a successful dependency
pass every dependency is present in `metric_values`
(`resolveList_ok_mem_isSome` below). -/
def compute_metric {α : Type} [Inhabited α] :
    Nat → Evaluator α → String → Option RErr × Evaluator α
  | 0, ev, _ => (some RErr.outOfFuel, ev)
  | fuel + 1, ev, name =>
    match dictGet ev.registry name with
    | none => (some (RErr.unresolved name), ev)
    | some fd =>
      match resolveList (fun ev2 d => compute_metric fuel ev2 d) fd.2 ev with
      | (some e, ev') => (some e, ev')
      | (none, ev1) =>
        let vals := fd.2.map fun d => (dictGet ev1.metric_values d).getD default
        (none, { ev1 with
                  metric_values := dictSet ev1.metric_values name (fd.1 vals),
                  callLog := ev1.callLog ++ [name] })

/-- `Evaluator.add_metric`: stores / overwrites a recipe. -/
def Evaluator.add_metric {α : Type} (ev : Evaluator α) (name : String)
    (func : List α → α) (dependencies : List String) : Evaluator α :=
  { ev with registry := dictSet ev.registry name (func, dependencies) }

/-- `Evaluator.metric`: returns a resolved value; `none` models the
`KeyError` on `self.metric_values[name]` (the spec's `MissingMetric`). -/
def Evaluator.metric {α : Type} (ev : Evaluator α) (name : String) : Option α :=
  dictGet ev.metric_values name

/-! ## Engine lemmas -/

theorem resolveList_registry {α : Type}
    (step : Evaluator α → String → Option RErr × Evaluator α)
    (hstep : ∀ ev n, ((step ev n).2).registry = ev.registry) :
    ∀ (deps : List String) (ev : Evaluator α),
      ((resolveList step deps ev).2).registry = ev.registry := by
  intro deps
  induction deps with
  | nil => intro ev; rfl
  | cons d rest ih =>
    intro ev
    simp only [resolveList]
    by_cases h : (dictGet ev.metric_values d).isSome
    · simp only [h, if_true, ih]
    · simp only [h, Bool.false_eq_true, if_false]
      rcases hs : step ev d with ⟨err, ev'⟩
      have hr : ev'.registry = ev.registry := by
        have := hstep ev d
        rwa [hs] at this
      cases err with
      | none => simp only [ih, hr]
      | some e => simpa using hr

theorem compute_metric_registry {α : Type} [Inhabited α] :
    ∀ (fuel : Nat) (ev : Evaluator α) (name : String),
      ((compute_metric fuel ev name).2).registry = ev.registry := by
  intro fuel
  induction fuel with
  | zero => intro ev name; rfl
  | succ fuel ih =>
    intro ev name
    simp only [compute_metric]
    rcases hreg : dictGet ev.registry name with _ | fd
    · rfl
    · simp only []
      rcases hr : resolveList (fun ev2 d => compute_metric fuel ev2 d) fd.2 ev with ⟨err, ev1⟩
      have hreg1 : ev1.registry = ev.registry := by
        have := resolveList_registry (fun ev2 d => compute_metric fuel ev2 d)
          (fun ev2 d => ih ev2 d) fd.2 ev
        rwa [hr] at this
      cases err with
      | none => simpa using hreg1
      | some e => simpa using hreg1

theorem resolveList_mono {α : Type}
    (step : Evaluator α → String → Option RErr × Evaluator α)
    (hstep : ∀ ev n k, (dictGet ev.metric_values k).isSome = true →
      (dictGet ((step ev n).2).metric_values k).isSome = true) :
    ∀ (deps : List String) (ev : Evaluator α) (k : String),
      (dictGet ev.metric_values k).isSome = true →
      (dictGet ((resolveList step deps ev).2).metric_values k).isSome = true := by
  intro deps
  induction deps with
  | nil => intro ev k hk; exact hk
  | cons d rest ih =>
    intro ev k hk
    simp only [resolveList]
    by_cases h : (dictGet ev.metric_values d).isSome
    · simp only [h, if_true]
      exact ih ev k hk
    · simp only [h, Bool.false_eq_true, if_false]
      rcases hs : step ev d with ⟨err, ev'⟩
      have hk' : (dictGet ev'.metric_values k).isSome = true := by
        have := hstep ev d k hk
        rwa [hs] at this
      cases err with
      | none => exact ih ev' k hk'
      | some e => simpa using hk'

theorem compute_metric_mono {α : Type} [Inhabited α] :
    ∀ (fuel : Nat) (ev : Evaluator α) (name k : String),
      (dictGet ev.metric_values k).isSome = true →
      (dictGet ((compute_metric fuel ev name).2).metric_values k).isSome = true := by
  intro fuel
  induction fuel with
  | zero => intro ev name k hk; exact hk
  | succ fuel ih =>
    intro ev name k hk
    simp only [compute_metric]
    rcases hreg : dictGet ev.registry name with _ | fd
    · exact hk
    · simp only []
      rcases hr : resolveList (fun ev2 d => compute_metric fuel ev2 d) fd.2 ev with ⟨err, ev1⟩
      have hk1 : (dictGet ev1.metric_values k).isSome = true := by
        have := resolveList_mono (fun ev2 d => compute_metric fuel ev2 d)
          (fun ev2 d k' => ih ev2 d k') fd.2 ev k hk
        rwa [hr] at this
      cases err with
      | none => simpa using dictGet_dictSet_isSome ev1.metric_values name k _ hk1
      | some e => simpa using hk1

/-- A successful `compute_metric` call leaves its own name cached. -/
theorem compute_metric_ok_isSome {α : Type} [Inhabited α]
    (fuel : Nat) (ev ev' : Evaluator α) (name : String)
    (h : compute_metric fuel ev name = (none, ev')) :
    (dictGet ev'.metric_values name).isSome = true := by
  cases fuel with
  | zero => simp [compute_metric] at h
  | succ fuel =>
    rw [compute_metric] at h
    rcases hreg : dictGet ev.registry name with _ | fd
    · rw [hreg] at h; simp at h
    · rw [hreg] at h
      dsimp only at h
      rcases hr : resolveList (fun ev2 d => compute_metric fuel ev2 d) fd.2 ev with ⟨err, ev1⟩
      rw [hr] at h
      cases err with
      | none =>
        dsimp only at h
        simp only [Prod.mk.injEq] at h
        rw [← h.2]
        simp [dictGet_dictSet_self]
      | some e => simp at h

/-- After a successful dependency pass every dependency is cached. -/
theorem resolveList_ok_mem_isSome {α : Type}
    (step : Evaluator α → String → Option RErr × Evaluator α)
    (hmono : ∀ ev n k, (dictGet ev.metric_values k).isSome = true →
      (dictGet ((step ev n).2).metric_values k).isSome = true)
    (hok : ∀ ev ev' n, step ev n = (none, ev') →
      (dictGet ev'.metric_values n).isSome = true) :
    ∀ (deps : List String) (ev ev' : Evaluator α),
      resolveList step deps ev = (none, ev') →
      ∀ d ∈ deps, (dictGet ev'.metric_values d).isSome = true := by
  intro deps
  induction deps with
  | nil => intro ev ev' h d hd; simp at hd
  | cons d0 rest ih =>
    intro ev ev' h d hd
    rw [resolveList] at h
    rcases List.mem_cons.mp hd with hd0 | hdrest
    · subst hd0
      by_cases hc : (dictGet ev.metric_values d).isSome
      · simp only [hc, if_true] at h
        have := resolveList_mono step hmono rest ev d hc
        rwa [h] at this
      · simp only [hc, Bool.false_eq_true, if_false] at h
        rcases hs : step ev d with ⟨err, ev2⟩
        rw [hs] at h
        cases err with
        | none =>
          dsimp only at h
          have h2 : (dictGet ev2.metric_values d).isSome = true := hok ev ev2 d hs
          have := resolveList_mono step hmono rest ev2 d h2
          rwa [h] at this
        | some e => simp at h
    · by_cases hc : (dictGet ev.metric_values d0).isSome
      · simp only [hc, if_true] at h
        exact ih ev ev' h d hdrest
      · simp only [hc, Bool.false_eq_true, if_false] at h
        rcases hs : step ev d0 with ⟨err, ev2⟩
        rw [hs] at h
        cases err with
        | none =>
          dsimp only at h
          exact ih ev2 ev' h d hdrest
        | some e => simp at h

/-- When every dependency is already cached, the dependency loop is a no-op:
no recursive call is made and the state is unchanged. -/
theorem resolveList_all_present {α : Type}
    (step : Evaluator α → String → Option RErr × Evaluator α) :
    ∀ (deps : List String) (ev : Evaluator α),
      (∀ d ∈ deps, (dictGet ev.metric_values d).isSome = true) →
      resolveList step deps ev = (none, ev) := by
  intro deps
  induction deps with
  | nil => intro ev _; rfl
  | cons d rest ih =>
    intro ev h
    rw [resolveList]
    simp only [h d (List.mem_cons_self d rest), if_true]
    exact ih ev fun d' hd' => h d' (List.mem_cons_of_mem d hd')

/-- Reachability along declared dependency edges of the recipe registry. -/
inductive DepReach {α : Type} (R : List (String × ((List α → α) × List String))) :
    String → String → Prop
  | direct {a b : String} {fd : (List α → α) × List String}
      (hR : dictGet R a = some fd) (hb : b ∈ fd.2) : DepReach R a b
  | trans {a b c : String} {fd : (List α → α) × List String}
      (hR : dictGet R a = some fd) (hc : c ∈ fd.2)
      (h : DepReach R c b) : DepReach R a b

theorem resolveList_err_unresolved {α : Type}
    (step : Evaluator α → String → Option RErr × Evaluator α)
    (hmono : ∀ ev n k, (dictGet ev.metric_values k).isSome = true →
      (dictGet ((step ev n).2).metric_values k).isSome = true)
    (hreg : ∀ ev n, ((step ev n).2).registry = ev.registry)
    (hstepErr : ∀ (ev ev' : Evaluator α) (n m : String),
      step ev n = (some (RErr.unresolved m), ev') →
      dictGet ev.registry m = none ∧
      (m = n ∨ (DepReach ev.registry n m ∧ dictGet ev.metric_values m = none))) :
    ∀ (deps : List String) (ev ev' : Evaluator α) (m : String),
      resolveList step deps ev = (some (RErr.unresolved m), ev') →
      dictGet ev.registry m = none ∧
      ∃ d ∈ deps, dictGet ev.metric_values d = none ∧
        (m = d ∨ (DepReach ev.registry d m ∧ dictGet ev.metric_values m = none)) := by
  intro deps
  induction deps with
  | nil => intro ev ev' m h; simp [resolveList] at h
  | cons d0 rest ih =>
    intro ev ev' m h
    rw [resolveList] at h
    by_cases hc : (dictGet ev.metric_values d0).isSome
    · simp only [hc, if_true] at h
      obtain ⟨h1, d, hd, h2⟩ := ih ev ev' m h
      exact ⟨h1, d, List.mem_cons_of_mem d0 hd, h2⟩
    · simp only [hc, Bool.false_eq_true, if_false] at h
      rcases hs : step ev d0 with ⟨err, ev2⟩
      rw [hs] at h
      cases err with
      | none =>
        dsimp only at h
        obtain ⟨h1, d, hd, hdnone, h2⟩ := ih ev2 ev' m h
        have hregs : ev2.registry = ev.registry := by
          have := hreg ev d0; rwa [hs] at this
        rw [hregs] at h1 h2
        have transfer : ∀ x, dictGet ev2.metric_values x = none →
            dictGet ev.metric_values x = none := by
          intro x hx
          by_contra hne
          have hsome : (dictGet ev.metric_values x).isSome = true :=
            Option.isSome_iff_ne_none.mpr hne
          have := hmono ev d0 x hsome
          rw [hs] at this
          rw [hx] at this
          simp at this
        refine ⟨h1, d, List.mem_cons_of_mem d0 hd, transfer d hdnone, ?_⟩
        rcases h2 with h2 | ⟨h2a, h2b⟩
        · exact Or.inl h2
        · exact Or.inr ⟨h2a, transfer m h2b⟩
      | some e =>
        dsimp only at h
        have he : e = RErr.unresolved m ∧ ev2 = ev' := by
          constructor
          · exact (Prod.mk.injEq _ _ _ _ ▸ h).1 |> Option.some.inj
          · exact (Prod.mk.injEq _ _ _ _ ▸ h).2
        obtain ⟨he1, he2⟩ := he
        subst he1
        obtain ⟨h1, h2⟩ := hstepErr ev ev2 d0 m hs
        have hd0none : dictGet ev.metric_values d0 = none :=
          Option.not_isSome_iff_eq_none.mp (by simpa using hc)
        exact ⟨h1, d0, List.mem_cons_self d0 rest, hd0none, h2⟩

theorem compute_metric_err_unresolved {α : Type} [Inhabited α] :
    ∀ (fuel : Nat) (ev ev' : Evaluator α) (name m : String),
      compute_metric fuel ev name = (some (RErr.unresolved m), ev') →
      dictGet ev.registry m = none ∧
      (m = name ∨ (DepReach ev.registry name m ∧ dictGet ev.metric_values m = none)) := by
  intro fuel
  induction fuel with
  | zero => intro ev ev' name m h; simp [compute_metric] at h
  | succ fuel ih =>
    intro ev ev' name m h
    rw [compute_metric] at h
    rcases hreg : dictGet ev.registry name with _ | fd
    · rw [hreg] at h
      dsimp only at h
      have hm : name = m := by
        have := (Prod.mk.injEq _ _ _ _ ▸ h).1 |> Option.some.inj
        exact (RErr.unresolved.injEq _ _ ▸ this)
      subst hm
      exact ⟨hreg, Or.inl rfl⟩
    · rw [hreg] at h
      dsimp only at h
      rcases hr : resolveList (fun ev2 d => compute_metric fuel ev2 d) fd.2 ev with ⟨err, ev1⟩
      rw [hr] at h
      cases err with
      | none => simp at h
      | some e =>
        dsimp only at h
        have he : e = RErr.unresolved m := by
          exact (Prod.mk.injEq _ _ _ _ ▸ h).1 |> Option.some.inj
        subst he
        obtain ⟨h1, d, hd, hdnone, h2⟩ := resolveList_err_unresolved
          (fun ev2 d => compute_metric fuel ev2 d)
          (fun ev2 n k => compute_metric_mono fuel ev2 n k)
          (fun ev2 n => compute_metric_registry fuel ev2 n)
          (fun ev2 ev2' n m' h' => ih ev2 ev2' n m' h')
          fd.2 ev ev1 m hr
        refine ⟨h1, Or.inr ?_⟩
        rcases h2 with h2 | ⟨h2a, h2b⟩
        · subst h2
          exact ⟨DepReach.direct hreg hd, hdnone⟩
        · exact ⟨DepReach.trans hreg hd h2a, h2b⟩

theorem resolveList_skip_prefix {α : Type}
    (step : Evaluator α → String → Option RErr × Evaluator α) :
    ∀ (pre l : List String) (ev : Evaluator α),
      (∀ p ∈ pre, (dictGet ev.metric_values p).isSome = true) →
      resolveList step (pre ++ l) ev = resolveList step l ev := by
  intro pre
  induction pre with
  | nil => intro l ev _; rfl
  | cons p rest ih =>
    intro l ev h
    rw [List.cons_append, resolveList]
    simp only [h p (List.mem_cons_self p rest), if_true]
    exact ih l ev fun p' hp' => h p' (List.mem_cons_of_mem p hp')

/-- If the first uncached dependency of a registered recipe is itself neither
cached nor registered, resolution raises the `KeyError` (`unresolved`) for
that dependency, leaving the state untouched. -/
theorem compute_metric_missing_direct_dep {α : Type} [Inhabited α]
    (fuel : Nat) (ev : Evaluator α) (name d : String)
    (fd : (List α → α) × List String) (pre rest : List String)
    (hreg : dictGet ev.registry name = some fd)
    (hdeps : fd.2 = pre ++ d :: rest)
    (hpre : ∀ p ∈ pre, (dictGet ev.metric_values p).isSome = true)
    (hdun : dictGet ev.metric_values d = none)
    (hdreg : dictGet ev.registry d = none) :
    compute_metric (fuel + 2) ev name = (some (RErr.unresolved d), ev) := by
  have hstep : compute_metric (fuel + 1) ev d = (some (RErr.unresolved d), ev) := by
    rw [compute_metric, hdreg]
  rw [compute_metric, hreg]
  dsimp only
  rw [hdeps, resolveList_skip_prefix _ pre (d :: rest) ev hpre, resolveList]
  simp only [hdun, Option.isSome_none, Bool.false_eq_true, if_false]
  rw [hstep]

/-! ## Claim C1 -/

/-- Concrete engine for observing recomputation: one registered recipe
`"z"` with no dependencies, empty seed. -/
def evRepeat : Evaluator Nat :=
  { metric_values := [], registry := [("z", (fun _ => 7, []))], callLog := [] }

/-- C1, counterexample: `compute_metric` has no cache check for the requested
name itself, so resolving the registered name "z" twice invokes its compute
function twice (the invocation log is `["z", "z"]`, not `["z"]`), refuting
"performs the computation only once". -/
theorem c1_counterexample_resolve_twice_invokes_twice :
    (compute_metric 1 evRepeat "z").2.callLog = ["z"] ∧
    (compute_metric 1 (compute_metric 1 evRepeat "z").2 "z").2.callLog = ["z", "z"] ∧
    (["z", "z"] : List String) ≠ ["z"] := by
  refine ⟨rfl, rfl, by decide⟩

/-- C1 (amended): after a successful resolve of a registered name whose
recipe does not list itself as a dependency, resolving it again succeeds,
yields exactly the same cached mapping (in particular the identical value
for the name), but re-invokes the recipe's compute function once more
(dependencies are *not* recomputed: the second call appends exactly one
entry to the invocation log). -/
theorem c1_second_resolve_same_value_one_invocation {α : Type} [Inhabited α]
    (fuel fuel2 : Nat) (ev ev1 : Evaluator α) (name : String)
    (fd : (List α → α) × List String)
    (hreg : dictGet ev.registry name = some fd)
    (hself : name ∉ fd.2)
    (h1 : compute_metric (fuel + 1) ev name = (none, ev1)) :
    (compute_metric (fuel2 + 1) ev1 name).1 = none ∧
    (∀ k, dictGet ((compute_metric (fuel2 + 1) ev1 name).2).metric_values k =
      dictGet ev1.metric_values k) ∧
    ((compute_metric (fuel2 + 1) ev1 name).2).callLog = ev1.callLog ++ [name] := by
  -- invert the first call
  rw [compute_metric, hreg] at h1
  dsimp only at h1
  rcases hr : resolveList (fun ev2 d => compute_metric fuel ev2 d) fd.2 ev with ⟨err, evMid⟩
  rw [hr] at h1
  cases err with
  | some e => simp at h1
  | none =>
    dsimp only at h1
    simp only [Prod.mk.injEq, true_and] at h1
    -- value cached by the first call
    set v1 := fd.1 (fd.2.map fun d => (dictGet evMid.metric_values d).getD default) with hv1
    -- all dependencies are cached in evMid, hence in ev1
    have hdepsMid : ∀ d ∈ fd.2, (dictGet evMid.metric_values d).isSome = true :=
      resolveList_ok_mem_isSome (fun ev2 d => compute_metric fuel ev2 d)
        (fun ev2 n k => compute_metric_mono fuel ev2 n k)
        (fun ev2 ev2' n h' => compute_metric_ok_isSome fuel ev2 ev2' n h')
        fd.2 ev evMid hr
    have hmv1 : ev1.metric_values = dictSet evMid.metric_values name v1 := by
      rw [← h1]
    have hlog1 : ev1.callLog = evMid.callLog ++ [name] := by
      rw [← h1]
    have hdeps1 : ∀ d ∈ fd.2, (dictGet ev1.metric_values d).isSome = true := by
      intro d hd
      rw [hmv1]
      exact dictGet_dictSet_isSome _ _ _ _ (hdepsMid d hd)
    -- dependency values are unchanged between the two calls
    have hvals : (fd.2.map fun d => (dictGet ev1.metric_values d).getD default) =
        (fd.2.map fun d => (dictGet evMid.metric_values d).getD default) := by
      apply List.map_congr_left
      intro d hd
      have hdne : d ≠ name := fun hcontra => hself (hcontra ▸ hd)
      rw [hmv1, dictGet_dictSet_ne _ _ _ _ hdne]
    -- the registry is untouched, so the second call sees the same recipe
    have hreg1 : dictGet ev1.registry name = some fd := by
      have hMidreg : evMid.registry = ev.registry := by
        have := resolveList_registry (fun ev2 d => compute_metric fuel ev2 d)
          (fun ev2 d => compute_metric_registry fuel ev2 d) fd.2 ev
        rwa [hr] at this
      rw [← h1]
      dsimp only
      rw [hMidreg, hreg]
    -- the first call left name cached with value v1
    have hname1 : dictGet ev1.metric_values name = some v1 := by
      rw [hmv1, dictGet_dictSet_self]
    -- unfold the second call
    have hrun : compute_metric (fuel2 + 1) ev1 name =
        (none, { ev1 with
                  metric_values := dictSet ev1.metric_values name v1,
                  callLog := ev1.callLog ++ [name] }) := by
      rw [compute_metric, hreg1]
      dsimp only
      rw [resolveList_all_present _ fd.2 ev1 hdeps1]
      dsimp only
      rw [hvals]
    refine ⟨by rw [hrun], ?_, by rw [hrun]⟩
    intro k
    rw [hrun]
    dsimp only
    by_cases hk : k = name
    · subst hk
      rw [dictGet_dictSet_self, hname1]
    · rw [dictGet_dictSet_ne _ _ _ _ hk]

/-- C1, witness: the amended theorem applied to the concrete one-recipe
engine: the second resolve of "z" succeeds, returns the same cached value 7
and logs exactly one extra invocation. -/
theorem c1_witness :
    (compute_metric 1 (compute_metric 1 evRepeat "z").2 "z").1 = none ∧
    dictGet ((compute_metric 1 (compute_metric 1 evRepeat "z").2 "z").2).metric_values "z" =
      dictGet (compute_metric 1 evRepeat "z").2.metric_values "z" ∧
    ((compute_metric 1 (compute_metric 1 evRepeat "z").2 "z").2).callLog =
      (compute_metric 1 evRepeat "z").2.callLog ++ ["z"] := by
  have h := c1_second_resolve_same_value_one_invocation 0 0 evRepeat
    (compute_metric 1 evRepeat "z").2 "z" (fun _ => 7, []) rfl (by decide) rfl
  exact ⟨h.1, h.2.1 "z", h.2.2⟩

/-! ## Claim C2 -/

/-- Engine in which recipe "a" names the unregistered, unseeded dependency
"m", but "a" itself is also seeded; "z" depends on "a", so "m" is a
transitive dependency of "z" along declared edges. -/
def evSeededShortcut : Evaluator Nat :=
  { metric_values := [("a", 5)],
    registry := [("z", (fun _ => 7, ["a"])), ("a", (fun _ => 9, ["m"]))],
    callLog := [] }

/-- C2, counterexample: "m" is a declared (transitive) dependency of recipe
"z" and is neither seeded nor registered, yet resolving "z" succeeds: the
resolver never looks past the already-seeded intermediate "a", so the claim
"resolving that recipe fails with UnresolvedDependency" is false as stated. -/
theorem c2_counterexample_seeded_intermediate :
    DepReach evSeededShortcut.registry "z" "m" ∧
    dictGet evSeededShortcut.registry "m" = none ∧
    dictGet evSeededShortcut.metric_values "m" = none ∧
    (compute_metric 3 evSeededShortcut "z").1 = none := by
  refine ⟨?_, rfl, rfl, rfl⟩
  have hm : "a" ∈ [("a" : String)] := List.mem_singleton.mpr rfl
  have hm' : "m" ∈ [("m" : String)] := List.mem_singleton.mpr rfl
  exact @DepReach.trans Nat evSeededShortcut.registry "z" "m" "a"
    ((fun _ => 7 : List Nat → Nat), ["a"]) rfl hm
    (@DepReach.direct Nat evSeededShortcut.registry "a" "m"
      ((fun _ => 9 : List Nat → Nat), ["m"]) rfl hm')

/-- C2 (amended): (i) every `unresolved` failure of `compute_metric` names a
metric that is genuinely absent from the registry and is either the
requested name itself or a name reached along declared dependency edges and
absent from the cache — these (`unresolved` = `UnresolvedDependency` /
`KeyError`, plus running out of stack on cycles) are the only failure
modes; (ii) conversely, if a registered recipe's first *uncached* dependency
is neither cached (seeded) nor registered, resolution does fail with
`unresolved` for exactly that dependency.  A missing name that is only
reachable through an already-seeded intermediate is never visited, so
resolution can succeed despite it (see the counterexample). -/
theorem c2_unresolved_dependency_amended {α : Type} [Inhabited α] :
    (∀ (fuel : Nat) (ev ev' : Evaluator α) (name m : String),
        compute_metric fuel ev name = (some (RErr.unresolved m), ev') →
        dictGet ev.registry m = none ∧
        (m = name ∨ (DepReach ev.registry name m ∧ dictGet ev.metric_values m = none))) ∧
    (∀ (fuel : Nat) (ev : Evaluator α) (name d : String)
        (fd : (List α → α) × List String) (pre rest : List String),
        dictGet ev.registry name = some fd →
        fd.2 = pre ++ d :: rest →
        (∀ p ∈ pre, (dictGet ev.metric_values p).isSome = true) →
        dictGet ev.metric_values d = none →
        dictGet ev.registry d = none →
        compute_metric (fuel + 2) ev name = (some (RErr.unresolved d), ev)) :=
  ⟨fun fuel ev ev' name m h => compute_metric_err_unresolved fuel ev ev' name m h,
   fun fuel ev name d fd pre rest h1 h2 h3 h4 h5 =>
     compute_metric_missing_direct_dep fuel ev name d fd pre rest h1 h2 h3 h4 h5⟩

/-- Engine with one recipe "z" whose sole dependency "m" is neither seeded
nor registered. -/
def evMissingDep : Evaluator Nat :=
  { metric_values := [], registry := [("z", (fun _ => 7, ["m"]))], callLog := [] }

/-- C2, witness: on the concrete engine, resolving "z" fails with
`unresolved "m"`, and the failure indeed names an unregistered metric. -/
theorem c2_witness :
    compute_metric 2 evMissingDep "z" = (some (RErr.unresolved "m"), evMissingDep) ∧
    dictGet evMissingDep.registry "m" = none := by
  have h2 := (c2_unresolved_dependency_amended (α := Nat)).2 0 evMissingDep "z" "m"
    (fun _ => 7, ["m"]) [] [] rfl rfl (fun p hp => by simp at hp) rfl rfl
  have h1 := (c2_unresolved_dependency_amended (α := Nat)).1 2 evMissingDep
    evMissingDep "z" "m" h2
  exact ⟨h2, h1.1⟩

/-! ## Claim C10: `Evaluator.__init__` copies the caller's mapping

To state the frame property about the *caller's dict object*, dicts get
identities: a heap of dict cells indexed by `Nat` refs.  The evaluator's
`self.metric_values` lives in its own cell; `compute_metric` reads and
writes only that cell, so its incremental writes are modelled by writing
the final dict back to the cell. -/

abbrev Heap (α : Type) := List (List (String × α))

def heapGet {α : Type} (h : Heap α) (r : Nat) : List (String × α) := h.getD r []

def heapSet {α : Type} (h : Heap α) (r : Nat) (d : List (String × α)) : Heap α := h.set r d

theorem heapGet_heapSet_ne {α : Type} :
    ∀ (h : Heap α) (r r' : Nat) (d : List (String × α)), r' ≠ r →
      heapGet (heapSet h r d) r' = heapGet h r' := by
  intro h
  induction h with
  | nil => intro r r' d _; rfl
  | cons c t ih =>
    intro r r' d hne
    cases r with
    | zero =>
      cases r' with
      | zero => exact absurd rfl hne
      | succ n => rfl
    | succ m =>
      cases r' with
      | zero => rfl
      | succ n =>
        have : n ≠ m := fun hc => hne (by rw [hc])
        simpa [heapGet, heapSet, List.getD] using ih m n d this

theorem heapGet_append_lt {α : Type} :
    ∀ (h : Heap α) (r : Nat) (d : List (String × α)), r < h.length →
      heapGet (h ++ [d]) r = heapGet h r := by
  intro h
  induction h with
  | nil => intro r d hr; simp at hr
  | cons c t ih =>
    intro r d hr
    cases r with
    | zero => rfl
    | succ n =>
      have : n < t.length := Nat.lt_of_succ_lt_succ hr
      simpa [heapGet, List.getD] using ih n d this

/-- Per-instance state in the heap model: the ref of `self.metric_values`
plus the (pure, per-instance) recipe registry and invocation log. -/
structure EvaluatorRef (α : Type) where
  valuesRef : Nat
  registry : List (String × ((List α → α) × List String))
  callLog : List String

/-- `Evaluator.__init__`: asserts the argument is a dict (static in this
embedding) and sets `self.metric_values = initial_metrics.copy()` —
a fresh cell holding a copy of the caller's entries. -/
def evaluator_init {α : Type} (h : Heap α) (callerRef : Nat) : EvaluatorRef α × Heap α :=
  ({ valuesRef := h.length, registry := [], callLog := [] }, h ++ [heapGet h callerRef])

/-- `Evaluator.compute_metric` in the heap model: runs the pure resolver on
the dict in the instance's own cell and writes the result back to that cell
(all of the Python method's dict mutations target `self.metric_values`). -/
def compute_metric_ref {α : Type} [Inhabited α] (fuel : Nat) (h : Heap α)
    (ev : EvaluatorRef α) (name : String) : Option RErr × EvaluatorRef α × Heap α :=
  let pureEv : Evaluator α :=
    { metric_values := heapGet h ev.valuesRef, registry := ev.registry, callLog := ev.callLog }
  let res := compute_metric fuel pureEv name
  (res.1, { ev with callLog := (res.2).callLog },
    heapSet h ev.valuesRef (res.2).metric_values)

/-- The operations a caller can perform after construction. -/
inductive EngineOp (α : Type) where
  | add (name : String) (func : List α → α) (deps : List String)
  | resolve (fuel : Nat) (name : String)

def applyOp {α : Type} [Inhabited α] (st : EvaluatorRef α × Heap α) :
    EngineOp α → EvaluatorRef α × Heap α
  | EngineOp.add n f d => ({ st.1 with registry := dictSet st.1.registry n (f, d) }, st.2)
  | EngineOp.resolve fuel n =>
    let r := compute_metric_ref fuel st.2 st.1 n
    (r.2.1, r.2.2)

def runOps {α : Type} [Inhabited α] (st : EvaluatorRef α × Heap α)
    (ops : List (EngineOp α)) : EvaluatorRef α × Heap α :=
  ops.foldl applyOp st

theorem runOps_frame {α : Type} [Inhabited α] (callerRef : Nat) :
    ∀ (ops : List (EngineOp α)) (st : EvaluatorRef α × Heap α),
      callerRef ≠ st.1.valuesRef →
      heapGet (runOps st ops).2 callerRef = heapGet st.2 callerRef ∧
      (runOps st ops).1.valuesRef = st.1.valuesRef := by
  intro ops
  induction ops with
  | nil => intro st _; exact ⟨rfl, rfl⟩
  | cons op rest ih =>
    intro st hne
    have hstep : heapGet (applyOp st op).2 callerRef = heapGet st.2 callerRef ∧
        (applyOp st op).1.valuesRef = st.1.valuesRef := by
      cases op with
      | add n f d => exact ⟨rfl, rfl⟩
      | resolve fuel n =>
        constructor
        · exact heapGet_heapSet_ne st.2 st.1.valuesRef callerRef _ hne
        · rfl
    have hne' : callerRef ≠ (applyOp st op).1.valuesRef := by
      rw [hstep.2]; exact hne
    have := ih (applyOp st op) hne'
    exact ⟨by rw [runOps, List.foldl_cons, ← runOps, this.1, hstep.1],
           by rw [runOps, List.foldl_cons, ← runOps, this.2, hstep.2]⟩

/-- C10: the constructor copies `initial_metrics` (`initial_metrics.copy()`),
so for every sequence of subsequent `add_metric` / `compute_metric`
operations the caller's own dict cell still holds exactly its original
entries — resolved metrics are stored only in the engine's own cell. -/
theorem c10_init_copies_caller_mapping {α : Type} [Inhabited α]
    (h : Heap α) (callerRef : Nat) (ops : List (EngineOp α))
    (hlt : callerRef < h.length) :
    heapGet (runOps (evaluator_init h callerRef) ops).2 callerRef =
      heapGet h callerRef := by
  have hne : callerRef ≠ (evaluator_init h callerRef).1.valuesRef := by
    simp only [evaluator_init]
    exact Nat.ne_of_lt hlt
  have := runOps_frame callerRef ops (evaluator_init h callerRef) hne
  rw [this.1]
  exact heapGet_append_lt h callerRef _ hlt

/-- C10, witness: a concrete caller dict `{"a": 1}` at ref 0; after
constructing the engine, registering "z" and resolving it, the caller's
dict still holds exactly `{"a": 1}`. -/
theorem c10_witness :
    heapGet (runOps (evaluator_init ([[("a", 1)]] : Heap Nat) 0)
      [EngineOp.add "z" (fun _ => 7) ["a"], EngineOp.resolve 2 "z"]).2 0 =
      [("a", 1)] := by
  have := c10_init_copies_caller_mapping ([[("a", 1)]] : Heap Nat) 0
    [EngineOp.add "z" (fun _ => 7) ["a"], EngineOp.resolve 2 "z"] (by decide)
  rw [this]
  rfl

/-! ## IEEE-float model for the numeric layer

A numpy `float64` is modelled as a finite real, NaN, or an infinity.
Exact real arithmetic stands in for floating point; the claims examined
below concern only NaN/infinity propagation and sign/zero facts, which
rounding does not affect. -/

inductive PFloat where
  | fin (x : ℝ)
  | nan
  | pinf
  | ninf

def PFloat.isNan : PFloat → Bool
  | PFloat.nan => true
  | _ => false

def PFloat.isFinite : PFloat → Bool
  | PFloat.fin _ => true
  | _ => false

/-- Largest double, the value `np.nan_to_num` substitutes for `+inf`. -/
def floatMax : ℝ := 17976931348623157 * 10 ^ 292

/-- `np.nan_to_num`, elementwise: NaN ↦ 0.0, ±inf ↦ ±(max float). -/
def nan_to_num : PFloat → PFloat
  | PFloat.fin x => PFloat.fin x
  | PFloat.nan => PFloat.fin 0
  | PFloat.pinf => PFloat.fin floatMax
  | PFloat.ninf => PFloat.fin (-floatMax)

/-! ## `handle_non_finite_returns` (the DataSanitizer) -/

/-- `np.ravel(np.nonzero(~np.isnan(rets)))` taken at `[0]`, with `-1`
standing for "no non-NaN entry". -/
def first_non_nan_index (rets : List PFloat) : Int :=
  match rets.findIdx? (fun r => !r.isNan) with
  | some i => (i : Int)
  | none => -1

/-- `handle_non_finite_returns`.  Returns the `(timestamps, rets)` output
pair *and* the final contents of the caller's `rets` array: the slice
assignment `rets[:first_non_nan_index] = np.nan_to_num(rets[:first_non_nan_index])`
writes into the caller's array in place, while every other step rebinds the
local name to a fresh array (`np.nan_to_num` and mask indexing copy).
Boolean-mask indexing of `timestamps` by a mask computed from `rets` is
modelled with `zip` (numpy raises on unequal lengths).  Note the first
index is located with `np.isnan`, not `np.isfinite`: a leading `inf`
counts as data. -/
def handle_non_finite_returns {T : Type} (timestamps : List T) (rets : List PFloat)
    (leading_non_finite_to_zeros : Bool) (subsequent_non_finite_to_zeros : Bool) :
    (List T × List PFloat) × List PFloat :=
  let idx : Int := first_non_nan_index rets
  let step2 : List T × List PFloat × List PFloat :=
    if 0 < idx ∧ idx < (rets.length : Int) then
      if leading_non_finite_to_zeros then
        let written := (rets.take idx.toNat).map nan_to_num ++ rets.drop idx.toNat
        (timestamps, written, written)
      else
        (timestamps.drop idx.toNat, rets.drop idx.toNat, rets)
    else (timestamps, rets, rets)
  if subsequent_non_finite_to_zeros then
    ((step2.1, step2.2.1.map nan_to_num), step2.2.2)
  else
    ((((step2.1.zip step2.2.1).filter (fun p => p.2.isFinite)).map (fun p => p.1),
      step2.2.1.filter (fun r => r.isFinite)), step2.2.2)

theorem PFloat.isFinite_eq_false_of_isNan {r : PFloat} (h : r.isNan = true) :
    r.isFinite = false := by
  cases r <;> simp_all [PFloat.isNan, PFloat.isFinite]

theorem map_nan_to_num_all_nan :
    ∀ (rets : List PFloat), (∀ r ∈ rets, r.isNan = true) →
      rets.map nan_to_num = List.replicate rets.length (PFloat.fin 0) := by
  intro rets
  induction rets with
  | nil => intro _; rfl
  | cons r t ih =>
    intro h
    have hr : r = PFloat.nan := by
      have := h r (List.mem_cons_self r t)
      cases r <;> simp_all [PFloat.isNan]
    subst hr
    simp only [List.map_cons, List.length_cons, List.replicate_succ, nan_to_num]
    exact congrArg _ (ih fun r' hr' => h r' (List.mem_cons_of_mem _ hr'))

/-! ## Claim C3 -/

/-- C3, counterexample: on the all-NaN input `[NaN]` with the default
policy (`leading=False`, `subsequent=True`), the sanitizer returns the
returns sequence `[0.0]` — the NaN entry *is* replaced by 0.0, refuting
"returns both sequences unchanged regardless of the policy flags"
(step 3, `np.nan_to_num`, runs unconditionally). -/
theorem c3_counterexample_all_nan_zeroed :
    (handle_non_finite_returns [(0 : ℤ)] [PFloat.nan] false true).1.2 = [PFloat.fin 0] ∧
    [PFloat.fin 0] ≠ [PFloat.nan] := by
  constructor
  · rfl
  · simp

/-- C3 (amended): when no return value is finite — here, every entry NaN —
no *leading* trimming or zeroing happens (step 2 is skipped since the first
non-NaN index is `-1`), but the interior policy still applies: with
`subsequent_non_finite_to_zeros` every return becomes 0.0 (timestamps
unchanged); without it every entry of both sequences is dropped, leaving
empty outputs.  The caller's array is not mutated in either case. -/
theorem c3_all_nan_amended {T : Type} (timestamps : List T) (rets : List PFloat)
    (l s : Bool) (hall : ∀ r ∈ rets, r.isNan = true) :
    handle_non_finite_returns timestamps rets l s =
      if s then ((timestamps, List.replicate rets.length (PFloat.fin 0)), rets)
      else (([], []), rets) := by
  have hidx : first_non_nan_index rets = -1 := by
    rw [first_non_nan_index]
    have hnone : rets.findIdx? (fun r => !r.isNan) = none := by
      rw [List.findIdx?_eq_none_iff]
      intro r hr
      simp [hall r hr]
    rw [hnone]
  rw [handle_non_finite_returns]
  simp only [hidx]
  have hcond : ¬((0 : Int) < -1 ∧ (-1 : Int) < (rets.length : Int)) := by
    intro hc
    exact absurd hc.1 (by decide)
  simp only [hcond, if_false]
  cases s with
  | true =>
    simp only [if_true]
    rw [map_nan_to_num_all_nan rets hall]
  | false =>
    simp only [Bool.false_eq_true, if_false]
    have hfil : rets.filter (fun r => r.isFinite) = [] := by
      rw [List.filter_eq_nil_iff]
      intro r hr
      simp [PFloat.isFinite_eq_false_of_isNan (hall r hr)]
    have hfil2 : (timestamps.zip rets).filter (fun p => p.2.isFinite) = [] := by
      rw [List.filter_eq_nil_iff]
      intro p hp
      have := (List.of_mem_zip hp).2
      simp [PFloat.isFinite_eq_false_of_isNan (hall p.2 this)]
    rw [hfil, hfil2]
    rfl

/-- C3, witness: the amended theorem at `[NaN, NaN]` with the default
policy: leading entries are not dropped, every return becomes 0.0, and the
caller's array still holds its NaNs. -/
theorem c3_witness :
    handle_non_finite_returns [(0 : ℤ), 1] [PFloat.nan, PFloat.nan] false true =
      (([0, 1], [PFloat.fin 0, PFloat.fin 0]), [PFloat.nan, PFloat.nan]) := by
  have := c3_all_nan_amended [(0 : ℤ), 1] [PFloat.nan, PFloat.nan] false true
    (by intro r hr; simp only [List.mem_cons, List.not_mem_nil, or_false] at hr
        rcases hr with h | h <;> rw [h] <;> rfl)
  simpa using this

/-! ## Claim C4 -/

/-- C4, counterexample: with `leading_non_finite_to_zeros = True` and a
leading NaN, the slice assignment mutates the caller's `rets` array: after
the call the caller's array is `[0.0, 1.0]`, not the original `[NaN, 1.0]`,
refuting "the returns array passed in holds the same values before and
after sanitization". -/
theorem c4_counterexample_caller_mutated :
    (handle_non_finite_returns [(0 : ℤ), 1] [PFloat.nan, PFloat.fin 1] true true).2 =
      [PFloat.fin 0, PFloat.fin 1] ∧
    [PFloat.fin 0, PFloat.fin 1] ≠ [PFloat.nan, PFloat.fin 1] := by
  constructor
  · rfl
  · simp

/-- C4 (amended): the caller's returns array is left unchanged *unless*
`leading_non_finite_to_zeros` is set and a non-empty leading NaN segment
exists; outside that single in-place slice assignment the sanitizer only
builds new sequences (the caller's timestamps are never written at all). -/
theorem c4_inputs_unchanged_amended {T : Type} (timestamps : List T) (rets : List PFloat)
    (l s : Bool) (h : l = false ∨ ¬(0 : Int) < first_non_nan_index rets) :
    (handle_non_finite_returns timestamps rets l s).2 = rets := by
  rw [handle_non_finite_returns]
  by_cases hc : (0 : Int) < first_non_nan_index rets ∧
      first_non_nan_index rets < (rets.length : Int)
  · have hl : l = false := by
      rcases h with h | h
      · exact h
      · exact absurd hc.1 h
    subst hl
    simp only [hc, if_true, Bool.false_eq_true, if_false]
    cases s <;> rfl
  · simp only [hc, if_false]
    cases s <;> rfl

/-- C4, witness: with `leading_non_finite_to_zeros = False` the caller's
array is untouched even though the input starts with NaN. -/
theorem c4_witness :
    (handle_non_finite_returns [(0 : ℤ), 1] [PFloat.nan, PFloat.fin 1] false true).2 =
      [PFloat.nan, PFloat.fin 1] :=
  c4_inputs_unchanged_amended [(0 : ℤ), 1] [PFloat.nan, PFloat.fin 1] false true (Or.inl rfl)

/-! ## Rolling drawdown (`compute_rolling_dd`)

Equity values are modelled as exact rationals (finite floats: division and
comparison on finite doubles are exact for the sign/zero facts claimed). -/

/-- `s.expanding(min_periods=1).max()`: the running maximum. -/
def runningMax : List ℚ → List ℚ
  | [] => []
  | x :: xs => x :: (runningMax xs).map (max x)

/-- `compute_rolling_dd`: running max of equity and
`dd = np.where(s >= rolling_max, 0.0, -(s - rolling_max) / rolling_max)`.
The `assert(len(timestamps) == len(equity))` precondition is carried as a
hypothesis on the theorems; the empty case returns the same `([], [])` pair
as the general formula. -/
def compute_rolling_dd {T : Type} (timestamps : List T) (equity : List ℚ) :
    List T × List ℚ :=
  (timestamps,
    equity.zipWith (fun s m => if m ≤ s then 0 else -(s - m) / m) (runningMax equity))

theorem runningMax_pos :
    ∀ (l : List ℚ), (∀ x ∈ l, 0 < x) → ∀ m ∈ runningMax l, 0 < m := by
  intro l
  induction l with
  | nil => intro _ m hm; simp [runningMax] at hm
  | cons x xs ih =>
    intro h m hm
    rw [runningMax] at hm
    rcases List.mem_cons.mp hm with hm | hm
    · rw [hm]; exact h x (List.mem_cons_self x xs)
    · obtain ⟨m', hm', rfl⟩ := List.mem_map.mp hm
      have := ih (fun y hy => h y (List.mem_cons_of_mem x hy)) m' hm'
      exact lt_max_of_lt_right this

theorem mem_zipWith {A B C : Type} (f : A → B → C) :
    ∀ (l1 : List A) (l2 : List B) (c : C), c ∈ List.zipWith f l1 l2 →
      ∃ a b, a ∈ l1 ∧ b ∈ l2 ∧ c = f a b := by
  intro l1
  induction l1 with
  | nil => intro l2 c hc; simp at hc
  | cons a t ih =>
    intro l2 c hc
    cases l2 with
    | nil => simp at hc
    | cons b t2 =>
      rw [List.zipWith_cons_cons] at hc
      rcases List.mem_cons.mp hc with hc | hc
      · exact ⟨a, b, List.mem_cons_self _ _, List.mem_cons_self _ _, hc⟩
      · obtain ⟨a', b', ha', hb', hc'⟩ := ih t2 c hc
        exact ⟨a', b', List.mem_cons_of_mem _ ha', List.mem_cons_of_mem _ hb', hc'⟩

/-! ## Claim C5 -/

/-- C5, counterexample: with negative equity the drawdown can be negative:
`compute_rolling_dd` on equity `[-1, -2]` yields `dd = [0, -1]`, and
`-1 < 0`, refuting "every drawdown value is ≥ 0" as a statement about
*every* equal-length pair. -/
theorem c5_counterexample_negative_equity :
    (compute_rolling_dd [(0 : ℤ), 1] [(-1 : ℚ), -2]).2 = [0, -1] ∧
    ¬(0 : ℚ) ≤ -1 := by
  constructor
  · show List.zipWith _ _ (runningMax [(-1 : ℚ), -2]) = _
    norm_num [runningMax]
  · norm_num

/-- C5 (amended): when every equity value is positive (as produced from a
positive starting equity by returns > -100%), every rolling-drawdown value
is ≥ 0, and the drawdown is 0 at each index where equity is ≥ its running
maximum so far. -/
theorem c5_rolling_dd_nonneg_amended {T : Type} (timestamps : List T) (equity : List ℚ)
    (hpos : ∀ x ∈ equity, 0 < x) :
    (∀ d ∈ (compute_rolling_dd timestamps equity).2, 0 ≤ d) ∧
    (∀ (i : Nat) (s m : ℚ), equity.get? i = some s →
      (runningMax equity).get? i = some m → m ≤ s →
      (compute_rolling_dd timestamps equity).2.get? i = some 0) := by
  constructor
  · intro d hd
    obtain ⟨s, m, _, hm, rfl⟩ :=
      mem_zipWith (fun s m => if m ≤ s then (0 : ℚ) else -(s - m) / m)
        equity (runningMax equity) d hd
    by_cases hms : m ≤ s
    · simp [hms]
    · have hmpos : 0 < m := runningMax_pos equity hpos m hm
      have hsm : s < m := lt_of_not_le hms
      simp only [hms, if_false]
      have : 0 < -(s - m) := by linarith
      positivity
  · intro i s m hs hm hms
    show (List.zipWith (fun s m => if m ≤ s then (0 : ℚ) else -(s - m) / m)
      equity (runningMax equity)).get? i = some 0
    rw [List.get?_eq_getElem?] at hs hm ⊢
    rw [List.getElem?_zipWith, hs, hm]
    simp [hms]

/-- C5, witness: the amended theorem on positive equity `[2, 1]`: all
drawdowns are nonnegative and the index-0 drawdown (where equity equals its
running max) is 0. -/
theorem c5_witness :
    (compute_rolling_dd [(0 : ℤ), 1] [(1 : ℚ), 1]).2.get? 0 = some 0 ∧
    (0 : ℚ) ≤ 0 := by
  have h := c5_rolling_dd_nonneg_amended [(0 : ℤ), 1] [(1 : ℚ), 1] (by decide)
  have hdd : (compute_rolling_dd [(0 : ℤ), 1] [(1 : ℚ), 1]).2 = [0, 0] := by
    show List.zipWith _ _ (runningMax _) = _
    norm_num [runningMax]
  refine ⟨h.2 0 1 1 rfl rfl le_rfl, h.1 0 ?_⟩
  rw [hdd]
  exact List.mem_cons_self 0 [0]

/-! ## Calendar dates (`np.datetime64`) -/

/-- An `np.datetime64` calendar date, ordered lexicographically by
(year, month, day). -/
abbrev NPDate := Lex (ℤ × Lex (ℤ × ℤ))

def mkDate (y m d : ℤ) : NPDate := toLex (y, toLex (m, d))

/-- `np.datetime64(pd.to_datetime(last_date).replace(year=d.year - 3))`:
shift a date back exactly three calendar years, keeping month and day.
(For Feb 29 with a non-leap target year, `replace` raises `ValueError`;
that error path is outside this model.) -/
def yearBack3 (t : NPDate) : NPDate :=
  mkDate ((ofLex t).1 - 3) (ofLex (ofLex t).2).1 (ofLex (ofLex t).2).2

theorem yearBack3_lt (t : NPDate) : yearBack3 t < t := by
  rcases t with ⟨y, md⟩
  exact (Prod.Lex.lt_iff ((y : ℤ) - 3, md) (y, md)).mpr (Or.inl (by omega))

/-! ## The trailing-3-year window -/

/-- `compute_dates_3yr`: keep the timestamps *strictly after* the cutoff
(`timestamps[timestamps > start_3yr]`). -/
def compute_dates_3yr (timestamps : List NPDate) : List NPDate :=
  match timestamps.getLast? with
  | none => []
  | some last => timestamps.filter (fun t => decide (yearBack3 last < t))

/-- `compute_returns_3yr`: `returns[timestamps >= timestamps_3yr[0]]` —
returns at positions where the timestamp is ≥ the first *retained* 3yr
date.  Boolean-mask indexing is modelled with `zip`; the `none` branch is
the `IndexError` on `timestamps_3yr[0]`, unreachable because `dates_3yr`
is non-empty whenever `timestamps` is. -/
def compute_returns_3yr {β : Type} (timestamps : List NPDate) (returns : List β) : List β :=
  if timestamps.isEmpty then []
  else
    match (compute_dates_3yr timestamps).head? with
    | none => []
    | some first3 =>
      ((timestamps.zip returns).filter (fun p => decide (first3 ≤ p.1))).map (fun p => p.2)

/-- Result type of `compute_rolling_dd_3yr`: despite the declared return
annotation `Tuple[np.ndarray, np.ndarray]`, the empty branch returns a
single array. -/
inductive Rdd3Result where
  | single (dates : List NPDate)
  | pair (value : List NPDate × List ℚ)
deriving DecidableEq

/-- `compute_rolling_dd_3yr`: windows with `timestamps >= start_3yr`
(note: `≥`, unlike the strict `>` of `compute_dates_3yr`) and recomputes
`compute_rolling_dd` on the windowed slices.  On empty input it returns a
*single* empty date array (`return np.array([], dtype='M8[D]')`). -/
def compute_rolling_dd_3yr (timestamps : List NPDate) (equity : List ℚ) : Rdd3Result :=
  match timestamps.getLast? with
  | none => Rdd3Result.single []
  | some last =>
    let start_3yr := yearBack3 last
    let equity' :=
      ((timestamps.zip equity).filter (fun p => decide (start_3yr ≤ p.1))).map (fun p => p.2)
    let timestamps' := timestamps.filter (fun t => decide (start_3yr ≤ t))
    Rdd3Result.pair (compute_rolling_dd timestamps' equity')

/-! ## Claim C6 -/

/-- C6: `compute_rolling_dd` always returns a (dates, magnitudes) pair —
also on empty input — but `compute_rolling_dd_3yr` on the empty series
returns a *single* empty date array instead of the pair promised by its
`Tuple[np.ndarray, np.ndarray]` annotation (on non-empty input it does
return a pair).  Downstream recipes index `rolling_dd_3yr[1]`, which fails
on the single-array shape. -/
theorem c6_rolling_dd_3yr_empty_shape :
    compute_rolling_dd_3yr [] [] = Rdd3Result.single [] ∧
    (∀ p : List NPDate × List ℚ, Rdd3Result.single [] ≠ Rdd3Result.pair p) ∧
    (∀ (ts : List NPDate) (eq : List ℚ) (last : NPDate), ts.getLast? = some last →
      compute_rolling_dd_3yr ts eq = Rdd3Result.pair (compute_rolling_dd
        (ts.filter (fun t => decide (yearBack3 last ≤ t)))
        (((ts.zip eq).filter (fun p => decide (yearBack3 last ≤ p.1))).map (fun p => p.2)))) ∧
    compute_rolling_dd ([] : List NPDate) ([] : List ℚ) = ([], []) := by
  refine ⟨rfl, fun p h => Rdd3Result.noConfusion h, ?_, rfl⟩
  intro ts eq last hl
  rw [compute_rolling_dd_3yr, hl]

/-- C6, witness: on the concrete non-empty one-point series the 3yr rolling
drawdown does come back as a (dates, magnitudes) pair. -/
theorem c6_witness :
    compute_rolling_dd_3yr [mkDate 2020 1 1] [1] =
      Rdd3Result.pair ([mkDate 2020 1 1], [0]) := by
  have h := c6_rolling_dd_3yr_empty_shape.2.2.1 [mkDate 2020 1 1] [(1 : ℚ)]
    (mkDate 2020 1 1) rfl
  rw [h, Rdd3Result.pair.injEq]
  show (List.filter _ _, List.zipWith _ _ (runningMax _)) = _
  norm_num [runningMax]
  decide

/-! ## Claim C7 -/

/-- C7, counterexample: timestamps `[2015-01-01, 2018-01-01]`.  The cutoff
is 2015-01-01, which equals the first timestamp: `compute_dates_3yr` keeps
only `[2018-01-01]` (strict `>`), while `compute_rolling_dd_3yr` windows
with `>=` and keeps *both* timestamps — the two windows are not the single
set `{t : t > cutoff}` the claim asserts. -/
theorem c7_counterexample_boundary_timestamp :
    compute_dates_3yr [mkDate 2015 1 1, mkDate 2018 1 1] = [mkDate 2018 1 1] ∧
    compute_rolling_dd_3yr [mkDate 2015 1 1, mkDate 2018 1 1] [1, 1] =
      Rdd3Result.pair ([mkDate 2015 1 1, mkDate 2018 1 1], [0, 0]) ∧
    [mkDate 2015 1 1, mkDate 2018 1 1] ≠ [mkDate 2018 1 1] := by
  refine ⟨by decide, ?_, by decide⟩
  rw [compute_rolling_dd_3yr]
  show Rdd3Result.pair _ = _
  rw [Rdd3Result.pair.injEq]
  show (List.filter _ _, List.zipWith _ _ (runningMax _)) = _
  norm_num [runningMax]
  decide

theorem sorted_head_le {l : List NPDate} (hs : List.Sorted (· < ·) l)
    {f : NPDate} (hf : l.head? = some f) : ∀ x ∈ l, f ≤ x := by
  cases l with
  | nil => intro x hx; simp at hx
  | cons a t =>
    have ha : a = f := by simpa using hf
    subst ha
    intro x hx
    rcases List.mem_cons.mp hx with hx | hx
    · exact le_of_eq hx.symm
    · exact le_of_lt ((List.sorted_cons.mp hs).1 x hx)

/-- C7 (amended): for a non-empty strictly increasing timestamp sequence in
which no timestamp falls exactly on the cutoff (last date minus three
calendar years), the three 3yr computations do agree on the single window
`{t : t > cutoff}`: `compute_dates_3yr` keeps exactly those timestamps,
`compute_returns_3yr` keeps the returns at exactly those positions, and
`compute_rolling_dd_3yr` recomputes the rolling drawdown on exactly that
windowed slice.  (When a timestamp equals the cutoff, `compute_rolling_dd_3yr`,
which windows with `≥`, keeps one extra boundary point — see the
counterexample.) -/
theorem c7_single_window_amended (timestamps : List NPDate) (equity returns : List ℚ)
    (last : NPDate) (hlast : timestamps.getLast? = some last)
    (hsorted : List.Sorted (· < ·) timestamps)
    (hnotie : ∀ t ∈ timestamps, t ≠ yearBack3 last) :
    compute_dates_3yr timestamps =
      timestamps.filter (fun t => decide (yearBack3 last < t)) ∧
    compute_rolling_dd_3yr timestamps equity =
      Rdd3Result.pair (compute_rolling_dd
        (timestamps.filter (fun t => decide (yearBack3 last < t)))
        (((timestamps.zip equity).filter (fun p => decide (yearBack3 last < p.1))).map
          (fun p => p.2))) ∧
    compute_returns_3yr timestamps returns =
      ((timestamps.zip returns).filter (fun p => decide (yearBack3 last < p.1))).map
        (fun p => p.2) := by
  have hiff : ∀ t ∈ timestamps, decide (yearBack3 last ≤ t) = decide (yearBack3 last < t) := by
    intro t ht
    have hne : yearBack3 last ≠ t := fun hc => hnotie t ht hc.symm
    apply decide_eq_decide.mpr
    constructor
    · intro hle; exact lt_of_le_of_ne hle hne
    · exact le_of_lt
  have hiffz : ∀ {γ : Type} (l2 : List γ) (p : NPDate × γ), p ∈ timestamps.zip l2 →
      decide (yearBack3 last ≤ p.1) = decide (yearBack3 last < p.1) := by
    intro γ l2 p hp
    exact hiff p.1 (List.of_mem_zip hp).1
  refine ⟨?_, ?_, ?_⟩
  · rw [compute_dates_3yr, hlast]
  · rw [compute_rolling_dd_3yr, hlast]
    rw [Rdd3Result.pair.injEq]
    rw [List.filter_congr (hiff), List.filter_congr (hiffz equity)]
  · rw [compute_returns_3yr]
    have hne : timestamps ≠ [] :=
      List.ne_nil_of_mem (List.mem_of_getLast?_eq_some hlast)
    simp only [List.isEmpty_eq_true, hne, if_false]
    have hd3 : compute_dates_3yr timestamps =
        timestamps.filter (fun t => decide (yearBack3 last < t)) := by
      rw [compute_dates_3yr, hlast]
    have hlastmem : last ∈ timestamps.filter (fun t => decide (yearBack3 last < t)) :=
      List.mem_filter.mpr ⟨List.mem_of_getLast?_eq_some hlast,
        decide_eq_true (yearBack3_lt last)⟩
    rcases hfl : timestamps.filter (fun t => decide (yearBack3 last < t)) with _ | ⟨f, rest⟩
    · rw [hfl] at hlastmem; simp at hlastmem
    · rw [hd3, hfl]
      show ((timestamps.zip returns).filter (fun p => decide (f ≤ p.1))).map (fun p => p.2) = _
      have hfmem : f ∈ timestamps.filter (fun t => decide (yearBack3 last < t)) := by
        rw [hfl]; exact List.mem_cons_self f rest
      have hfcut : yearBack3 last < f := by
        have := (List.mem_filter.mp hfmem).2
        exact of_decide_eq_true this
      have hfsorted : List.Sorted (· < ·)
          (timestamps.filter (fun t => decide (yearBack3 last < t))) :=
        List.Sorted.filter _ hsorted
      have hhead : (timestamps.filter (fun t => decide (yearBack3 last < t))).head? = some f := by
        rw [hfl]; rfl
      apply congrArg
      apply List.filter_congr
      intro p hp
      have hpin : p.1 ∈ timestamps := (List.of_mem_zip hp).1
      apply decide_eq_decide.mpr
      constructor
      · intro hle
        exact lt_of_lt_of_le hfcut hle
      · intro hcut
        have hpfil : p.1 ∈ timestamps.filter (fun t => decide (yearBack3 last < t)) :=
          List.mem_filter.mpr ⟨hpin, decide_eq_true hcut⟩
        exact sorted_head_le hfsorted hhead p.1 hpfil

/-- C7, witness: on `[2019-01-01, 2020-06-01]` (no timestamp on the
cutoff 2017-06-01) the whole series lies in the window, so `dates_3yr`
keeps both timestamps and `returns_3yr` keeps both returns. -/
theorem c7_witness :
    compute_dates_3yr [mkDate 2019 1 1, mkDate 2020 6 1] =
      [mkDate 2019 1 1, mkDate 2020 6 1] ∧
    compute_returns_3yr [mkDate 2019 1 1, mkDate 2020 6 1] [(1 : ℚ), 2] = [1, 2] := by
  have h := c7_single_window_amended [mkDate 2019 1 1, mkDate 2020 6 1] []
    [(1 : ℚ), 2] (mkDate 2020 6 1) rfl (by decide) (by decide)
  refine ⟨?_, ?_⟩
  · rw [h.1]; decide
  · rw [h.2.2]
    decide

/-! ## `compute_sortino`

Sortino needs square roots, so this part of the model works in `ℝ`; the
comparisons on `ℝ` make these definitions noncomputable (classical), and
the witnesses evaluate them by `simp`/`norm_num` instead of `decide`. -/

/-- The float's real value; only applied under an `isFinite` guard. -/
def PFloat.toRealD : PFloat → ℝ
  | PFloat.fin x => x
  | _ => 0

/-- IEEE `x <= 0`: false for NaN and `+inf`, true for `-inf`. -/
def PFloat.leZero : PFloat → Prop
  | PFloat.fin x => x ≤ 0
  | PFloat.nan => False
  | PFloat.pinf => False
  | PFloat.ninf => True

noncomputable instance : DecidablePred PFloat.leZero := fun r =>
  match r with
  | PFloat.fin x => inferInstanceAs (Decidable (x ≤ 0))
  | PFloat.nan => inferInstanceAs (Decidable False)
  | PFloat.pinf => inferInstanceAs (Decidable False)
  | PFloat.ninf => inferInstanceAs (Decidable True)

/-- Population mean (`np.mean`). -/
noncomputable def meanR (l : List ℝ) : ℝ := l.sum / l.length

/-- Population variance. -/
noncomputable def varR (l : List ℝ) : ℝ :=
  (l.map (fun x => (x - meanR l) ^ 2)).sum / l.length

/-- Population standard deviation (`np.std`, default `ddof=0`). -/
noncomputable def stdR (l : List ℝ) : ℝ := Real.sqrt (varR l)

theorem stdR_nonneg (l : List ℝ) : 0 ≤ stdR l := Real.sqrt_nonneg _

/-- `np.sqrt` on a float. -/
noncomputable def PFloat.sqrtP : PFloat → PFloat
  | PFloat.fin x => if x < 0 then PFloat.nan else PFloat.fin (Real.sqrt x)
  | PFloat.nan => PFloat.nan
  | PFloat.pinf => PFloat.pinf
  | PFloat.ninf => PFloat.nan

/-- IEEE product of a finite float with a float
(`sortino_denom * np.sqrt(periods_per_year)`). -/
noncomputable def mulFin (a : ℝ) : PFloat → PFloat
  | PFloat.fin y => PFloat.fin (a * y)
  | PFloat.nan => PFloat.nan
  | PFloat.pinf =>
    if a = 0 then PFloat.nan else if 0 < a then PFloat.pinf else PFloat.ninf
  | PFloat.ninf =>
    if a = 0 then PFloat.nan else if 0 < a then PFloat.ninf else PFloat.pinf

/-- IEEE quotient of a finite float by a float (`amean / denom`);
numpy maps `finite / ±inf` to 0.0. -/
noncomputable def divFin (a : ℝ) : PFloat → PFloat
  | PFloat.fin y =>
    if y = 0 then (if a = 0 then PFloat.nan else if 0 < a then PFloat.pinf else PFloat.ninf)
    else PFloat.fin (a / y)
  | PFloat.nan => PFloat.nan
  | PFloat.pinf => PFloat.fin 0
  | PFloat.ninf => PFloat.fin 0

/-- The two `np.where` lines of `compute_sortino`: non-finite entries
replaced by 0, then positive entries zeroed (the downside series). -/
noncomputable def sortino_normalized (returns : List PFloat) : List ℝ :=
  (returns.map (fun r => if r.isFinite then r.toRealD else 0)).map
    (fun x => if 0 < x then 0 else x)

/-- `compute_sortino`: NaN guard on empty input, non-finite `amean` or
`periods_per_year <= 0`; then `sortino_denom = np.std(normalized_rets)`,
and `np.nan if sortino_denom == 0 else amean / (sortino_denom * np.sqrt(periods_per_year))`. -/
noncomputable def compute_sortino (returns : List PFloat) (amean : PFloat)
    (periods_per_year : PFloat) : PFloat :=
  if returns.isEmpty = true ∨ amean.isFinite = false ∨ periods_per_year.leZero then
    PFloat.nan
  else
    let sortino_denom := stdR (sortino_normalized returns)
    if sortino_denom = 0 then PFloat.nan
    else divFin amean.toRealD (mulFin sortino_denom periods_per_year.sqrtP)

theorem sortino_isNan_iff (returns : List PFloat) (amean ppy : PFloat) :
    (compute_sortino returns amean ppy).isNan = true ↔
      (returns.isEmpty = true ∨ amean.isFinite = false ∨ ppy.leZero ∨
       stdR (sortino_normalized returns) = 0 ∨ ppy.isNan = true) := by
  by_cases hg : returns.isEmpty = true ∨ amean.isFinite = false ∨ ppy.leZero
  · rw [compute_sortino, if_pos hg]
    constructor
    · intro _
      rcases hg with h | h | h
      · exact Or.inl h
      · exact Or.inr (Or.inl h)
      · exact Or.inr (Or.inr (Or.inl h))
    · intro _; rfl
  · have hA : returns.isEmpty = false := by
      have := fun h => hg (Or.inl h)
      simpa using this
    have hB : amean.isFinite = true := by
      have := fun h => hg (Or.inr (Or.inl h))
      simpa using this
    have hC : ¬ ppy.leZero := fun h => hg (Or.inr (Or.inr h))
    rw [compute_sortino, if_neg hg]
    dsimp only
    by_cases hd : stdR (sortino_normalized returns) = 0
    · rw [if_pos hd]
      constructor
      · intro _; exact Or.inr (Or.inr (Or.inr (Or.inl hd)))
      · intro _; rfl
    · rw [if_neg hd]
      have hdpos : 0 < stdR (sortino_normalized returns) :=
        lt_of_le_of_ne (stdR_nonneg _) (Ne.symm hd)
      cases ppy with
      | fin p =>
        have hppos : 0 < p := not_le.mp (fun hc => hC hc)
        have h1 : (PFloat.fin p).sqrtP = PFloat.fin (Real.sqrt p) := by
          simp only [PFloat.sqrtP, not_lt.mpr hppos.le, if_false]
        rw [h1]
        have h2 : mulFin (stdR (sortino_normalized returns)) (PFloat.fin (Real.sqrt p)) =
            PFloat.fin (stdR (sortino_normalized returns) * Real.sqrt p) := rfl
        rw [h2]
        have hprod : stdR (sortino_normalized returns) * Real.sqrt p ≠ 0 :=
          ne_of_gt (mul_pos hdpos (Real.sqrt_pos.mpr hppos))
        have h3 : divFin amean.toRealD
            (PFloat.fin (stdR (sortino_normalized returns) * Real.sqrt p)) =
            PFloat.fin (amean.toRealD / (stdR (sortino_normalized returns) * Real.sqrt p)) := by
          simp only [divFin, hprod, if_false]
        rw [h3]
        simp only [PFloat.isNan]
        constructor
        · intro hfalse; exact absurd hfalse (by simp)
        · intro hrhs
          rcases hrhs with h | h | h | h | h
          · rw [hA] at h; exact absurd h (by simp)
          · rw [hB] at h; exact absurd h (by simp)
          · exact absurd h hC
          · exact absurd h hd
          · exact absurd h (by simp [PFloat.isNan])
      | nan =>
        have : (PFloat.nan).sqrtP = PFloat.nan := rfl
        rw [this]
        have : mulFin (stdR (sortino_normalized returns)) PFloat.nan = PFloat.nan := rfl
        rw [this]
        have : divFin amean.toRealD PFloat.nan = PFloat.nan := rfl
        rw [this]
        constructor
        · intro _; exact Or.inr (Or.inr (Or.inr (Or.inr rfl)))
        · intro _; rfl
      | pinf =>
        have h1 : (PFloat.pinf).sqrtP = PFloat.pinf := rfl
        rw [h1]
        have h2 : mulFin (stdR (sortino_normalized returns)) PFloat.pinf = PFloat.pinf := by
          simp only [mulFin, ne_of_gt hdpos, if_false, hdpos, if_true]
        rw [h2]
        have h3 : divFin amean.toRealD PFloat.pinf = PFloat.fin 0 := rfl
        rw [h3]
        simp only [PFloat.isNan]
        constructor
        · intro hfalse; exact absurd hfalse (by simp)
        · intro hrhs
          rcases hrhs with h | h | h | h | h
          · rw [hA] at h; exact absurd h (by simp)
          · rw [hB] at h; exact absurd h (by simp)
          · exact absurd h hC
          · exact absurd h hd
          · exact absurd h (by simp [PFloat.isNan])
      | ninf =>
        exact absurd trivial hC

theorem sortino_value (returns : List PFloat) (amean : PFloat) (p : ℝ)
    (hppos : 0 < p) (hA : returns.isEmpty = false) (hB : amean.isFinite = true)
    (hd : stdR (sortino_normalized returns) ≠ 0) :
    compute_sortino returns amean (PFloat.fin p) =
      PFloat.fin (amean.toRealD / (stdR (sortino_normalized returns) * Real.sqrt p)) := by
  have hg : ¬(returns.isEmpty = true ∨ amean.isFinite = false ∨ (PFloat.fin p).leZero) := by
    intro hc
    rcases hc with h | h | h
    · rw [hA] at h; exact absurd h (by simp)
    · rw [hB] at h; exact absurd h (by simp)
    · exact absurd (show p ≤ 0 from h) (not_le.mpr hppos)
  rw [compute_sortino, if_neg hg]
  dsimp only
  rw [if_neg hd]
  have h1 : (PFloat.fin p).sqrtP = PFloat.fin (Real.sqrt p) := by
    simp only [PFloat.sqrtP, not_lt.mpr hppos.le, if_false]
  rw [h1]
  have h2 : mulFin (stdR (sortino_normalized returns)) (PFloat.fin (Real.sqrt p)) =
      PFloat.fin (stdR (sortino_normalized returns) * Real.sqrt p) := rfl
  rw [h2]
  have hdpos : 0 < stdR (sortino_normalized returns) :=
    lt_of_le_of_ne (stdR_nonneg _) (Ne.symm hd)
  have hprod : stdR (sortino_normalized returns) * Real.sqrt p ≠ 0 :=
    ne_of_gt (mul_pos hdpos (Real.sqrt_pos.mpr hppos))
  simp only [divFin, hprod, if_false]

/-! ## Claim C8 -/

/-- Concrete downside series: `[-0.01·100, -0.03·100]` scaled to
`[-1, -3]` for readable arithmetic. -/
theorem sortino_normalized_example :
    sortino_normalized [PFloat.fin (-1), PFloat.fin (-3)] = [(-1 : ℝ), -3] := by
  rw [sortino_normalized]
  simp only [List.map_cons, List.map_nil, PFloat.isFinite, if_true, PFloat.toRealD]
  norm_num

theorem stdR_example : stdR [(-1 : ℝ), -3] = 1 := by
  rw [stdR, varR, meanR]
  simp only [List.sum_cons, List.sum_nil, List.length_cons, List.length_nil,
    List.map_cons, List.map_nil]
  norm_num

/-- C8, counterexample: `periods_per_year = NaN` (possible: `periods_per_year`
is itself NaN for an empty or pattern-free timestamp series).  None of the
claim's four conditions holds — the returns are non-empty, `amean` is
finite, NaN is not ≤ 0, and the downside std is 1 ≠ 0 — yet
`compute_sortino` returns NaN (`amean / (denom * sqrt(NaN))`). -/
theorem c8_counterexample_nan_ppy :
    (compute_sortino [PFloat.fin (-1), PFloat.fin (-3)] (PFloat.fin 2) PFloat.nan).isNan
      = true ∧
    ([PFloat.fin (-1), PFloat.fin (-3)] : List PFloat).isEmpty = false ∧
    (PFloat.fin 2).isFinite = true ∧
    ¬ PFloat.nan.leZero ∧
    stdR (sortino_normalized [PFloat.fin (-1), PFloat.fin (-3)]) ≠ 0 := by
  have hstd : stdR (sortino_normalized [PFloat.fin (-1), PFloat.fin (-3)]) = 1 := by
    rw [sortino_normalized_example, stdR_example]
  refine ⟨?_, rfl, rfl, fun h => h, by rw [hstd]; norm_num⟩
  rw [compute_sortino]
  rw [if_neg ?hguard]
  case hguard =>
    intro hc
    rcases hc with h | h | h
    · exact absurd h (by simp)
    · exact absurd h (by simp [PFloat.isFinite])
    · exact h
  dsimp only
  rw [if_neg (by rw [hstd]; norm_num)]
  rfl

/-- C8 (amended): `compute_sortino` returns NaN exactly when the returns
are empty, `amean` is non-finite, `periodsPerYear ≤ 0` (IEEE comparison),
the downside standard deviation is 0, **or `periodsPerYear` is NaN** (the
case the claim omits); in the remaining finite-positive-`periodsPerYear`
case it equals `amean / (std(downside) * sqrt(periodsPerYear))`. -/
theorem c8_sortino_nan_characterization (returns : List PFloat)
    (amean periods_per_year : PFloat) :
    ((compute_sortino returns amean periods_per_year).isNan = true ↔
      (returns.isEmpty = true ∨ amean.isFinite = false ∨ periods_per_year.leZero ∨
       stdR (sortino_normalized returns) = 0 ∨ periods_per_year.isNan = true)) ∧
    (∀ p : ℝ, periods_per_year = PFloat.fin p → 0 < p →
      returns.isEmpty = false → amean.isFinite = true →
      stdR (sortino_normalized returns) ≠ 0 →
      compute_sortino returns amean periods_per_year =
        PFloat.fin (amean.toRealD / (stdR (sortino_normalized returns) * Real.sqrt p))) := by
  constructor
  · exact sortino_isNan_iff returns amean periods_per_year
  · intro p hp hppos hA hB hd
    subst hp
    exact sortino_value returns amean p hppos hA hB hd

/-- C8, witness: `sortino([-1, -3], amean=2, periodsPerYear=1)`: the
downside std is 1 and `sqrt 1 = 1`, so the ratio is exactly 2 — and it is
not NaN, matching the characterization. -/
theorem c8_witness :
    compute_sortino [PFloat.fin (-1), PFloat.fin (-3)] (PFloat.fin 2) (PFloat.fin 1) =
      PFloat.fin 2 := by
  have hstd : stdR (sortino_normalized [PFloat.fin (-1), PFloat.fin (-3)]) = 1 := by
    rw [sortino_normalized_example, stdR_example]
  have h := (c8_sortino_nan_characterization [PFloat.fin (-1), PFloat.fin (-3)]
    (PFloat.fin 2) (PFloat.fin 1)).2 1 rfl one_pos rfl rfl (by rw [hstd]; norm_num)
  rw [h, hstd, Real.sqrt_one]
  norm_num [PFloat.toRealD]

/-! ## `compute_return_metrics` entry (Claim C9) -/

/-- Modelled from the spec: `monotonically_increasing` lives in
`pyqstrat.pq_utils`, which is not part of this repository snapshot; §6 of
the spec describes it as `MonotonicityCheck(timestamps) → boolean`, the
strictly-increasing (no duplicates) precondition helper. -/
def monotonically_increasing : List NPDate → Bool
  | [] => true
  | [_] => true
  | a :: b :: rest => decide (a < b) && monotonically_increasing (b :: rest)

theorem monotonically_increasing_iff :
    ∀ l : List NPDate, monotonically_increasing l = true ↔ List.Chain' (· < ·) l
  | [] => by simp [monotonically_increasing]
  | [a] => by simp [monotonically_increasing]
  | a :: b :: rest => by
    rw [monotonically_increasing, Bool.and_eq_true, decide_eq_true_iff,
      List.chain'_cons, monotonically_increasing_iff (b :: rest)]

inductive PipelineError where
  | assertionError
deriving DecidableEq

/-- The entry of `compute_return_metrics`: the three `assert` statements
(lines 452-454), then the call to the sanitizer.  The dtype checks
(`type(rets) == np.ndarray and rets.dtype == np.float64`, datetime64
timestamps, `type(initial_metrics) == dict`) hold statically in this typed
embedding.  No assert compares `len(timestamps)` with `len(rets)`. -/
def compute_return_metrics_entry (timestamps : List NPDate) (rets : List PFloat)
    (starting_equity : ℚ)
    (leading_non_finite_to_zeros subsequent_non_finite_to_zeros : Bool) :
    Except PipelineError ((List NPDate × List PFloat) × List PFloat) :=
  if 0 < starting_equity ∧ monotonically_increasing timestamps = true then
    Except.ok (handle_non_finite_returns timestamps rets
      leading_non_finite_to_zeros subsequent_non_finite_to_zeros)
  else Except.error PipelineError.assertionError

/-- C9, counterexample: a length mismatch (2 timestamps, 1 return) passes
the entry assertions — `compute_return_metrics` proceeds into sanitization
and returns normally, so mismatched lengths are *not* "detected and
reported as a fatal failure immediately at entry". -/
theorem c9_counterexample_length_mismatch_not_checked :
    compute_return_metrics_entry [mkDate 2020 1 1, mkDate 2020 1 2] [PFloat.fin 0]
      1 false true =
      Except.ok (([mkDate 2020 1 1, mkDate 2020 1 2], [PFloat.fin 0]), [PFloat.fin 0]) ∧
    ([mkDate 2020 1 1, mkDate 2020 1 2] : List NPDate).length ≠ [PFloat.fin 0].length := by
  constructor
  · rfl
  · decide

/-- C9 (amended): the entry of `compute_return_metrics` fails (an
`AssertionError`, before sanitization or any metric computation) exactly
when the starting equity is non-positive or the timestamps are not
strictly increasing (duplicates included); wrong element types cannot be
expressed in the typed embedding, and mismatched timestamp/return lengths
are *not* checked at entry (individual metric functions assert them
later). -/
theorem c9_entry_checks_amended (timestamps : List NPDate) (rets : List PFloat)
    (se : ℚ) (l s : Bool) :
    (∃ e, compute_return_metrics_entry timestamps rets se l s = Except.error e) ↔
      (se ≤ 0 ∨ ¬ List.Chain' (· < ·) timestamps) := by
  rw [compute_return_metrics_entry]
  by_cases hc : 0 < se ∧ monotonically_increasing timestamps = true
  · rw [if_pos hc]
    constructor
    · rintro ⟨e, he⟩
      exact absurd he (by simp)
    · intro h
      rcases h with h | h
      · exact absurd hc.1 (not_lt.mpr h)
      · exact absurd ((monotonically_increasing_iff _).mp hc.2) h
  · rw [if_neg hc]
    constructor
    · intro _
      rcases not_and_or.mp hc with h | h
      · exact Or.inl (not_lt.mp h)
      · exact Or.inr (fun hch => h ((monotonically_increasing_iff _).mpr hch))
    · intro _
      exact ⟨_, rfl⟩

/-- C9, witness: non-positive starting equity (0) is rejected at entry. -/
theorem c9_witness :
    compute_return_metrics_entry [mkDate 2020 1 1] [PFloat.fin 0] 0 false true =
      Except.error PipelineError.assertionError := by
  obtain ⟨e, he⟩ := (c9_entry_checks_amended [mkDate 2020 1 1] [PFloat.fin 0]
    0 false true).mpr (Or.inl le_rfl)
  cases e
  exact he
